import Mathlib

/-!
Shallow embedding of the ida-keybinder plugin core (src/keybinder.py):
the label normalizer, the Qt action enumerator, the action mapper, the
two rebinding passes and the UI-ready lifecycle hook, together with the
settings adapter that gates them.  Python dicts are modelled as ordered
association lists with in-place update (the only dict operations the
source performs are get, set and len), host and toolkit collaborators as
explicit environment records, and logging as a list of structured events
tagged with their level.
-/

namespace Keybinder

/-- Ordered association list standing for a Python dict with string keys
(insertion order preserved, value update in place). -/
abbrev Dict (α : Type) := List (String × α)

/-- d[k] = v: update the first entry with key k in place, else append. -/
def dictInsert {α : Type} (d : Dict α) (k : String) (v : α) : Dict α :=
  match d with
  | [] => [(k, v)]
  | p :: rest => if p.1 = k then (k, v) :: rest else p :: dictInsert rest k v

/-- d.get(k): the value of the first entry with key k, if any. -/
def dictGet {α : Type} (d : Dict α) (k : String) : Option α :=
  match d with
  | [] => none
  | p :: rest => if p.1 = k then some p.2 else dictGet rest k

theorem dictGet_dictInsert {α : Type} (d : Dict α) (k k' : String) (v : α) :
    dictGet (dictInsert d k v) k' = if k' = k then some v else dictGet d k' := by
  induction d with
  | nil =>
    simp only [dictInsert, dictGet]
    by_cases h : k = k' <;> simp [h, eq_comm]
  | cons p rest ih =>
    simp only [dictInsert]
    by_cases h : p.1 = k
    · subst h
      simp only [if_pos rfl, dictGet]
      by_cases h' : k' = p.1 <;> simp [h', eq_comm]
    · simp only [if_neg h, dictGet]
      by_cases h' : p.1 = k'
      · have hkk : ¬ k' = k := fun hk => h (h'.trans hk)
        simp [h', hkk]
      · simp [h', ih]

/-!
Label normalizer: `KeybindingManager._replace_tilde_with_ampersand`, i.e.
`re.sub` with the compiled pattern `~(.*?)~` (class attribute
`_TILDE_PATTERN_RGX`) and replacement `&{group 1}`, applied to
`text or ""`.  The scan is leftmost, non-overlapping, and the span is
non-greedy: at a tilde, the match closes at the nearest following tilde
with no intervening newline (`.` does not match a newline); when no such
closing tilde exists, no match starts at this position and the scan moves
one character to the right.
-/

/-- At an opening tilde: find the nearest closing tilde reachable without
crossing a newline; return the span between them and the rest after the
closing tilde. -/
def findClose : List Char → Option (List Char × List Char)
  | [] => none
  | c :: rest =>
    if c = '~' then some ([], rest)
    else if c = '\n' then none
    else (findClose rest).map fun p => (c :: p.1, p.2)

theorem findClose_length :
    ∀ (cs s r : List Char), findClose cs = some (s, r) → r.length < cs.length := by
  intro cs
  induction cs with
  | nil => intro s r h; simp [findClose] at h
  | cons c rest ih =>
    intro s r h
    simp only [findClose] at h
    by_cases hc : c = '~'
    · subst hc
      rw [if_pos rfl] at h
      simp only [Option.some.injEq, Prod.mk.injEq] at h
      obtain ⟨hs, hr⟩ := h
      subst hr
      simp
    · simp only [if_neg hc] at h
      by_cases hn : c = '\n'
      · simp [hn] at h
      · simp only [if_neg hn, Option.map_eq_some'] at h
        obtain ⟨⟨s', r'⟩, hfc, heq⟩ := h
        have := ih s' r' hfc
        have hr : r = r' := by
          have h2 := congrArg Prod.snd heq
          simpa using h2.symm
        subst hr
        simp only [List.length_cons]
        omega

/-- One pass of the substitution over the character list. -/
def replaceTildeList (cs : List Char) : List Char :=
  match cs with
  | [] => []
  | c :: rest =>
    if c = '~' then
      match h : findClose rest with
      | some (s, r) => '&' :: (s ++ replaceTildeList r)
      | none => c :: replaceTildeList rest
    else c :: replaceTildeList rest
termination_by cs.length
decreasing_by
  · exact Nat.lt_succ_of_lt (findClose_length rest s r h)
  · exact Nat.lt_succ_self _
  · exact Nat.lt_succ_self _

/-- `KeybindingManager._replace_tilde_with_ampersand(text)`; the argument
is optional because the Python body evaluates `text or ""`. -/
def _replace_tilde_with_ampersand (text : Option String) : String :=
  (replaceTildeList (text.getD "").data).asString

theorem replaceTildeList_nil : replaceTildeList [] = [] := by
  rw [replaceTildeList]

theorem replaceTildeList_cons_of_ne (c : Char) (rest : List Char) (hc : c ≠ '~') :
    replaceTildeList (c :: rest) = c :: replaceTildeList rest := by
  rw [replaceTildeList]
  simp [hc]

theorem replaceTildeList_tilde_some (rest s r : List Char)
    (h : findClose rest = some (s, r)) :
    replaceTildeList ('~' :: rest) = '&' :: (s ++ replaceTildeList r) := by
  rw [replaceTildeList, if_pos rfl]
  split
  · next s' r' heq =>
    rw [h] at heq
    simp only [Option.some.injEq, Prod.mk.injEq] at heq
    rw [heq.1, heq.2]
  · next heq => rw [h] at heq; exact absurd heq (by simp)

theorem replaceTildeList_tilde_none (rest : List Char)
    (h : findClose rest = none) :
    replaceTildeList ('~' :: rest) = '~' :: replaceTildeList rest := by
  rw [replaceTildeList, if_pos rfl]
  split
  · next s' r' heq => rw [h] at heq; exact absurd heq (by simp)
  · rfl

theorem findClose_span (x rest : List Char) (hx : '~' ∉ x) (hn : '\n' ∉ x) :
    findClose (x ++ '~' :: rest) = some (x, rest) := by
  induction x with
  | nil => simp [findClose]
  | cons c cs ih =>
    have hc : c ≠ '~' := fun h => hx (h ▸ List.mem_cons_self c cs)
    have hcn : c ≠ '\n' := fun h => hn (h ▸ List.mem_cons_self c cs)
    have ih' := ih (fun h => hx (List.mem_cons_of_mem c h))
      (fun h => hn (List.mem_cons_of_mem c h))
    simp [findClose, hc, hcn, ih']

/-- Outside every span the characters pass through unchanged. -/
theorem replaceTildeList_no_tilde (cs : List Char) (h : '~' ∉ cs) :
    replaceTildeList cs = cs := by
  induction cs with
  | nil => exact replaceTildeList_nil
  | cons c rest ih =>
    have hc : c ≠ '~' := fun hcc => h (hcc ▸ List.mem_cons_self c rest)
    rw [replaceTildeList_cons_of_ne c rest hc,
      ih (fun hm => h (List.mem_cons_of_mem c hm))]

/-- The leftmost span is replaced and the scan resumes after it. -/
theorem replaceTildeList_span (pre x rest : List Char)
    (hpre : '~' ∉ pre) (hx : '~' ∉ x) (hn : '\n' ∉ x) :
    replaceTildeList (pre ++ '~' :: (x ++ '~' :: rest))
      = pre ++ '&' :: (x ++ replaceTildeList rest) := by
  induction pre with
  | nil =>
    simpa using replaceTildeList_tilde_some _ x rest (findClose_span x rest hx hn)
  | cons c cs ih =>
    have hc : c ≠ '~' := fun h => hpre (h ▸ List.mem_cons_self c cs)
    have ih' := ih (fun h => hpre (List.mem_cons_of_mem c h))
    simp only [List.cons_append, replaceTildeList_cons_of_ne c _ hc, ih']

/-!
The Qt side.  A QObject carries an identity (object identity in the
process), whether it is a QAction, its display text, and its children.
`widget.findChildren(QAction)` returns every QAction in the descendant
subtree (recursive search, parent before its own subtree, siblings in
child-list order).
-/

/-- A node of the Qt object tree. -/
inductive QObject where
  | node (id : Nat) (isAction : Bool) (text : String) (children : List QObject)

def QObject.id : QObject → Nat
  | .node i _ _ _ => i

def QObject.isAction : QObject → Bool
  | .node _ a _ _ => a

def QObject.text : QObject → String
  | .node _ _ t _ => t

def QObject.children : QObject → List QObject
  | .node _ _ _ cs => cs

mutual
/-- `widget.findChildren(QAction)`: every QAction in the strict descendant
subtree of the widget. -/
def actionDescendants : QObject → List QObject
  | .node _ _ _ children => actionDescendantsOf children

/-- The QActions found below a list of sibling subtrees, each sibling
listed before its own descendants. -/
def actionDescendantsOf : List QObject → List QObject
  | [] => []
  | c :: cs =>
    (if c.isAction then [c] else []) ++ actionDescendants c ++ actionDescendantsOf cs
end

/-!
Termination measure for the enumeration loop: a widget popped from the
queue enqueues its QAction descendants, so the loop is measured by a
weight that counts each node once per queue occurrence it will cause.
-/

mutual
def weight : QObject → Nat
  | .node _ _ _ children => 1 + weightOf children

def weightOf : List QObject → Nat
  | [] => 0
  | .node i a t ccs :: cs =>
    (if a then weight (.node i a t ccs) else 0) + weightOf ccs + weightOf cs
end

theorem weightOf_eq (cs : List QObject) :
    ((actionDescendantsOf cs).map weight).sum = weightOf cs := by
  match cs with
  | [] => simp [actionDescendantsOf, weightOf]
  | QObject.node i a t ccs :: rest =>
    have h1 := weightOf_eq ccs
    have h2 := weightOf_eq rest
    simp only [actionDescendantsOf, weightOf, actionDescendants, List.map_append,
      List.sum_append, h1, h2, QObject.isAction]
    by_cases ha : a <;> simp [ha]
termination_by sizeOf cs

theorem weight_eq (o : QObject) :
    ((actionDescendants o).map weight).sum + 1 = weight o := by
  obtain ⟨i, a, t, cs⟩ := o
  simp [actionDescendants, weight, weightOf_eq cs, Nat.add_comm]

theorem enum_measure_lt (w : QObject) (rest : List QObject) :
    (((rest ++ actionDescendants w).map weight).sum)
      < (((w :: rest).map weight).sum) := by
  simp only [List.map_append, List.sum_append, List.map_cons, List.sum_cons]
  have hw := weight_eq w
  omega

/-- The enumeration loop of `KeybindingManager._enumerate_qactions`:
pop the queue front, enqueue that widget's QAction descendants at the
back, and if the widget is itself a QAction record text -> widget,
overwriting any earlier entry with the same text. -/
def enumLoop (queue : List QObject) (d : Dict QObject) : Dict QObject :=
  match queue with
  | [] => d
  | w :: rest =>
    enumLoop (rest ++ actionDescendants w)
      (if w.isAction then dictInsert d w.text w else d)
termination_by (queue.map weight).sum
decreasing_by
  exact enum_measure_lt _ _

/-- The pop order of QActions seen by the loop (the sequence of widgets
recorded into the table, in the order they are recorded). -/
def bfsVisit (queue : List QObject) : List QObject :=
  match queue with
  | [] => []
  | w :: rest =>
    if w.isAction then w :: bfsVisit (rest ++ actionDescendants w)
    else bfsVisit (rest ++ actionDescendants w)
termination_by (queue.map weight).sum
decreasing_by
  all_goals exact enum_measure_lt _ _

theorem enumLoop_eq_foldl (queue : List QObject) (d : Dict QObject) :
    enumLoop queue d
      = (bfsVisit queue).foldl (fun d o => dictInsert d o.text o) d := by
  have H : ∀ (n : Nat) (queue : List QObject) (d : Dict QObject),
      (queue.map weight).sum = n →
      enumLoop queue d = (bfsVisit queue).foldl (fun d o => dictInsert d o.text o) d := by
    intro n
    induction n using Nat.strong_induction_on with
    | _ n ih =>
      intro queue d hm
      cases queue with
      | nil => rw [enumLoop, bfsVisit]; rfl
      | cons w rest =>
        rw [enumLoop, bfsVisit]
        have hlt : (((rest ++ actionDescendants w).map weight).sum) < n :=
          hm ▸ enum_measure_lt w rest
        by_cases ha : w.isAction = true
        · rw [if_pos ha, if_pos ha, List.foldl_cons]
          exact ih _ hlt _ _ rfl
        · rw [if_neg ha, if_neg ha]
          exact ih _ hlt _ _ rfl
  exact H _ queue d rfl

/-- The last element of the list with the given display text, if any. -/
def lastWithText (t : String) : List QObject → Option QObject
  | [] => none
  | o :: rest =>
    match lastWithText t rest with
    | some q => some q
    | none => if o.text = t then some o else none

theorem dictGet_foldl_insert (l : List QObject) (d : Dict QObject) (t : String) :
    dictGet (l.foldl (fun d o => dictInsert d o.text o) d) t
      = match lastWithText t l with
        | some q => some q
        | none => dictGet d t := by
  induction l generalizing d with
  | nil => simp [lastWithText]
  | cons o rest ih =>
    simp only [List.foldl_cons, lastWithText, ih]
    cases lastWithText t rest with
    | some q => rfl
    | none =>
      simp only [dictGet_dictInsert]
      by_cases ht : o.text = t
      · simp [ht]
      · have ht' : ¬ t = o.text := fun h => ht h.symm
        simp [ht, ht']

/-!
Logging is modelled structurally: one constructor per logger call site,
tagged with the level the source uses there.
-/

inductive LogLevel where
  | debug
  | info
  | warning
  | error
deriving DecidableEq

inductive LogEvent where
  | errorQtUnavailableEnumerate
  | errorNoApplicationInstance
  | debugEnumerated (n : Nat)
  | debugActionNotFound (name qtLabel : String)
  | infoMapped (n : Nat)
  | debugAlreadyApplied
  | errorQtUnavailableApply
  | infoSettingShortcutsViaQActions
  | infoSettingShortcuts
  | warningActionNotFound (name shortcut : String)
  | infoShortcutSet (name shortcut : String)
  | errorUpdateFailed (name shortcut : String)
  | debugUiReadyApplying
  | infoDisabledViaSettings
deriving DecidableEq

def LogEvent.level : LogEvent → LogLevel
  | .errorQtUnavailableEnumerate => .error
  | .errorNoApplicationInstance => .error
  | .debugEnumerated _ => .debug
  | .debugActionNotFound _ _ => .debug
  | .infoMapped _ => .info
  | .debugAlreadyApplied => .debug
  | .errorQtUnavailableApply => .error
  | .infoSettingShortcutsViaQActions => .info
  | .infoSettingShortcuts => .info
  | .warningActionNotFound _ _ => .warning
  | .infoShortcutSet _ _ => .info
  | .errorUpdateFailed _ _ => .error
  | .debugUiReadyApplying => .debug
  | .infoDisabledViaSettings => .info

/-- The host and toolkit collaborators the manager calls.
qtAvailable stands for QApplication and QAction both being importable;
appInstance for QApplication.instance(); registeredActions for
idaapi.get_registered_actions(); getActionLabel for
idaapi.get_action_label; updateActionShortcut for
idaapi.update_action_shortcut. -/
structure Env where
  qtAvailable : Bool
  appInstance : Option QObject
  registeredActions : List String
  getActionLabel : String → Option String
  updateActionShortcut : String → String → Bool

/-- A side effect on shortcut state: a QAction.setShortcut call on a
given Qt object, or an idaapi.update_action_shortcut call. -/
inductive Mutation where
  | setShortcut (objId : Nat) (shortcut : String)
  | updateActionShortcut (name shortcut : String)
deriving DecidableEq

/-- The mutable fields of a KeybindingManager: the binding policy dict,
the applied flag, and the action_name -> QAction dict. -/
structure ManagerState where
  bindings : List (String × String)
  applied : Bool
  actions : Dict QObject

/-- Outcome of one manager method call: the new manager state, the
shortcut mutations performed, and the log events emitted, in order. -/
structure ApplyResult where
  state : ManagerState
  muts : List Mutation
  logs : List LogEvent

/-- `KeybindingManager._enumerate_qactions`. -/
def _enumerate_qactions (env : Env) : Dict QObject × List LogEvent :=
  if env.qtAvailable = false then ([], [.errorQtUnavailableEnumerate])
  else
    match env.appInstance with
    | none => ([], [.errorNoApplicationInstance])
    | some root =>
      let table := enumLoop [root] []
      (table, [.debugEnumerated table.length])

/-- The per-name resolution performed inside the `_build_action_map`
loop: fetch the label, skip when absent or empty, normalize it, look it
up in the label table. -/
def resolveName (labelTable : Dict QObject) (getLabel : String → Option String)
    (name : String) : Option QObject :=
  match getLabel name with
  | none => none
  | some label =>
    if label = "" then none
    else dictGet labelTable (_replace_tilde_with_ampersand (some label))

/-- The debug event `_build_action_map` emits for a name whose label is
present and nonempty but whose normalized label misses the table. -/
def missLog (labelTable : Dict QObject) (getLabel : String → Option String)
    (name : String) : Option LogEvent :=
  match getLabel name with
  | none => none
  | some label =>
    if label = "" then none
    else
      let qtLabel := _replace_tilde_with_ampersand (some label)
      match dictGet labelTable qtLabel with
      | some _ => none
      | none => some (.debugActionNotFound name qtLabel)

/-- One iteration of the `_build_action_map` loop body. -/
def buildStep (labelTable : Dict QObject) (getLabel : String → Option String)
    (acc : Dict QObject × List LogEvent) (name : String) :
    Dict QObject × List LogEvent :=
  match getLabel name with
  | none => acc
  | some label =>
    if label = "" then acc
    else
      let qtLabel := _replace_tilde_with_ampersand (some label)
      match dictGet labelTable qtLabel with
      | none => (acc.1, acc.2 ++ [.debugActionNotFound name qtLabel])
      | some qact => (dictInsert acc.1 name qact, acc.2)

/-- `KeybindingManager._build_action_map`, acting on the _actions dict it
was entered with (empty table from the enumerator means an early return
that leaves _actions untouched and skips the final info log). -/
def _build_action_map (labelTable : Dict QObject) (registered : List String)
    (getLabel : String → Option String) (actions0 : Dict QObject) :
    Dict QObject × List LogEvent :=
  if labelTable.isEmpty then (actions0, [])
  else
    let r := registered.foldl (buildStep labelTable getLabel) (actions0, [])
    (r.1, r.2 ++ [.infoMapped r.1.length])

/-- One iteration of the policy loop in `KeybindingManager.apply`. -/
def applyStep (actions : Dict QObject) (acc : List Mutation × List LogEvent)
    (p : String × String) : List Mutation × List LogEvent :=
  match dictGet actions p.1 with
  | none => (acc.1, acc.2 ++ [.warningActionNotFound p.1 p.2])
  | some qact =>
    (acc.1 ++ [.setShortcut qact.id p.2], acc.2 ++ [.infoShortcutSet p.1 p.2])

/-- `KeybindingManager.apply`. -/
def apply (env : Env) (st : ManagerState) : ApplyResult :=
  if st.applied then { state := st, muts := [], logs := [.debugAlreadyApplied] }
  else
    let st1 : ManagerState := { st with applied := true }
    if env.qtAvailable = false then
      { state := st1, muts := [], logs := [.errorQtUnavailableApply] }
    else
      let enr := _enumerate_qactions env
      let bam := _build_action_map enr.1 env.registeredActions env.getActionLabel
        st1.actions
      let st2 : ManagerState := { st1 with actions := bam.1 }
      let r := st2.bindings.foldl (applyStep st2.actions) ([], [])
      { state := st2, muts := r.1,
        logs := enr.2 ++ bam.2 ++ [.infoSettingShortcutsViaQActions] ++ r.2 }

/-- One iteration of the policy loop in `KeybindingManager.apply2`. -/
def apply2Step (env : Env) (acc : List Mutation × List LogEvent)
    (p : String × String) : List Mutation × List LogEvent :=
  match env.getActionLabel p.1 with
  | none => (acc.1, acc.2 ++ [.warningActionNotFound p.1 p.2])
  | some label =>
    if label = "" then (acc.1, acc.2 ++ [.warningActionNotFound p.1 p.2])
    else
      (acc.1 ++ [.updateActionShortcut p.1 p.2],
       acc.2 ++ [if env.updateActionShortcut p.1 p.2
                 then LogEvent.infoShortcutSet p.1 p.2
                 else LogEvent.errorUpdateFailed p.1 p.2])

/-- `KeybindingManager.apply2` (the legacy variant going through
idaapi.update_action_shortcut). -/
def apply2 (env : Env) (st : ManagerState) : ApplyResult :=
  if st.applied then { state := st, muts := [], logs := [.debugAlreadyApplied] }
  else
    let st1 : ManagerState := { st with applied := true }
    let r := st1.bindings.foldl (apply2Step env) ([], [])
    { state := st1, muts := r.1, logs := [.infoSettingShortcuts] ++ r.2 }

/-- The binding table the policy loop of `apply` iterates over
(its loop header reads self._bindings.items()). -/
def applyBindingTable (st : ManagerState) : List (String × String) :=
  st.bindings

/-- The binding table the policy loop of `apply2` iterates over
(its loop header also reads self._bindings.items()). -/
def apply2BindingTable (st : ManagerState) : List (String × String) :=
  st.bindings

/-- The action map `apply` has in hand when its policy loop runs. -/
def resolvedActions (env : Env) (st : ManagerState) : Dict QObject :=
  (_build_action_map (_enumerate_qactions env).1 env.registeredActions
    env.getActionLabel st.actions).1

/-- The value of the ida_settings setting: absent key (the getter
raises), a bool, a string, or some other type. -/
inductive SettingValue where
  | bool (b : Bool)
  | str (s : String)
  | other

/-- `SettingsAdapter`: settingsMod is none when the ida_settings import
failed; otherwise it returns the stored value for a key, none standing
for get_current_plugin_setting raising. -/
structure SettingsAdapter where
  settingsMod : Option (String → Option SettingValue)
  keyEnabled : String
  defaultEnabled : Bool

/-- `SettingsAdapter._get_bool`. -/
def SettingsAdapter._get_bool (sa : SettingsAdapter) (key : String)
    (default : Bool) : Bool :=
  match sa.settingsMod with
  | none => default
  | some getSetting =>
    match getSetting key with
    | none => default
    | some (.bool b) => b
    | some (.str s) => ["1", "true", "yes", "on"].contains s.toLower
    | some .other => default

/-- `SettingsAdapter.plugin_enabled` (its debug log is not modelled; no
claim concerns it). -/
def SettingsAdapter.plugin_enabled (sa : SettingsAdapter) : Bool :=
  sa._get_bool sa.keyEnabled sa.defaultEnabled

/-- `KeyHooker.ready_to_run`: the UI-ready lifecycle hook, consulting the
settings adapter before triggering the manager. -/
def ready_to_run (sa : SettingsAdapter) (env : Env) (st : ManagerState) :
    ApplyResult :=
  if sa.plugin_enabled then
    let r := apply env st
    { r with logs := LogEvent.debugUiReadyApplying :: r.logs }
  else
    { state := st, muts := [], logs := [.infoDisabledViaSettings] }

/-- The binding policy dict built in `KeybindingManager.__init__`. -/
def initBindings : List (String × String) :=
  [("ChooserEdit", "Meta+E, C"),
   ("TilEditType", "Meta+E, T"),
   ("EditSegment", "Meta+E, S"),
   ("TilExpandStruct", "Meta+E, E"),
   ("SetSegmentRegister", "Meta+E, R"),
   ("Edit/Plugins/IDA Patcher", "Meta+P, P"),
   ("Edit/Plugins/Signature Maker (py)", "Meta+P, S"),
   ("ai_assistant:rename_all", "Meta+P, Ctrl+R"),
   ("ai_assistant:rename", "Meta+P, Ctrl+F"),
   ("ai_assistant:analyze", "Meta+P, Ctrl+A"),
   ("mutilz:force_analyze", "Meta+M, A"),
   ("mutilz:re_decompile_function", "Meta+M, D")]

/-- A freshly constructed KeybindingManager: _applied False, _actions
empty. -/
def initManagerState : ManagerState :=
  { bindings := initBindings, applied := false, actions := [] }

/-- The Qt-side GUI shortcut state, per object identity, folded over the
recorded mutations (only QAction.setShortcut touches it). -/
def applyMutations (g : Nat → Option String) : List Mutation → (Nat → Option String)
  | [] => g
  | Mutation.setShortcut i s :: rest =>
    applyMutations (fun j => if j = i then some s else g j) rest
  | Mutation.updateActionShortcut _ _ :: rest => applyMutations g rest

/-!
Characterizations of the two folds (the `_build_action_map` loop and the
`apply` policy loop), and of which levels each pass logs at.
-/

theorem buildStep_fst (lt : Dict QObject) (gl : String → Option String)
    (acc : Dict QObject × List LogEvent) (n : String) :
    (buildStep lt gl acc n).1
      = match resolveName lt gl n with
        | some q => dictInsert acc.1 n q
        | none => acc.1 := by
  simp only [buildStep, resolveName]
  cases gl n with
  | none => rfl
  | some label =>
    by_cases hl : label = ""
    · simp [hl]
    · simp only [if_neg hl]
      cases dictGet lt (_replace_tilde_with_ampersand (some label)) <;> rfl

theorem buildStep_snd (lt : Dict QObject) (gl : String → Option String)
    (acc : Dict QObject × List LogEvent) (n : String) :
    (buildStep lt gl acc n).2 = acc.2 ++ (missLog lt gl n).toList := by
  simp only [buildStep, missLog]
  cases gl n with
  | none => simp
  | some label =>
    by_cases hl : label = ""
    · simp [hl]
    · simp only [if_neg hl]
      cases dictGet lt (_replace_tilde_with_ampersand (some label)) <;> simp

theorem buildFold_fst_get (lt : Dict QObject) (gl : String → Option String) :
    ∀ (names : List String) (acc : Dict QObject × List LogEvent) (name : String),
    dictGet ((names.foldl (buildStep lt gl) acc).1) name
      = if name ∈ names ∧ (resolveName lt gl name).isSome
        then resolveName lt gl name
        else dictGet acc.1 name := by
  intro names
  induction names with
  | nil => intro acc name; simp
  | cons n rest ih =>
    intro acc name
    rw [List.foldl_cons, ih]
    by_cases hmem : name ∈ rest ∧ (resolveName lt gl name).isSome
    · rw [if_pos hmem, if_pos ⟨List.mem_cons_of_mem n hmem.1, hmem.2⟩]
    · rw [if_neg hmem]
      by_cases hn : name = n
      · subst hn
        cases hr : resolveName lt gl name with
        | some q =>
          rw [if_pos ⟨List.mem_cons_self name rest, rfl⟩, buildStep_fst, hr]
          simp [dictGet_dictInsert]
        | none =>
          rw [if_neg (fun hc => absurd hc.2 (by simp)), buildStep_fst, hr]
      · have hcond : ¬ (name ∈ n :: rest ∧ (resolveName lt gl name).isSome) := by
          intro hc
          rcases List.mem_cons.mp hc.1 with h1 | h1
          · exact hn h1
          · exact hmem ⟨h1, hc.2⟩
        rw [if_neg hcond, buildStep_fst]
        cases hr : resolveName lt gl n with
        | some q => simp [dictGet_dictInsert, hn]
        | none => rfl

theorem buildFold_snd (lt : Dict QObject) (gl : String → Option String) :
    ∀ (names : List String) (acc : Dict QObject × List LogEvent),
    (names.foldl (buildStep lt gl) acc).2
      = acc.2 ++ names.filterMap (missLog lt gl) := by
  intro names
  induction names with
  | nil => intro acc; simp
  | cons n rest ih =>
    intro acc
    rw [List.foldl_cons, ih, List.filterMap_cons]
    cases hm : missLog lt gl n with
    | none => simp [buildStep_snd, hm]
    | some e => simp [buildStep_snd, hm]

theorem applyFold (actions : Dict QObject) :
    ∀ (bs : List (String × String)) (acc : List Mutation × List LogEvent),
    bs.foldl (applyStep actions) acc
      = (acc.1 ++ bs.filterMap (fun p => (dictGet actions p.1).map
            fun q => Mutation.setShortcut q.id p.2),
         acc.2 ++ bs.map (fun p =>
            match dictGet actions p.1 with
            | none => LogEvent.warningActionNotFound p.1 p.2
            | some _ => LogEvent.infoShortcutSet p.1 p.2)) := by
  intro bs
  induction bs with
  | nil => intro acc; simp
  | cons p rest ih =>
    intro acc
    rw [List.foldl_cons, ih, List.filterMap_cons, List.map_cons]
    cases hd : dictGet actions p.1 with
    | none => simp [applyStep, hd]
    | some q => simp [applyStep, hd]

/-- The log events kept when filtering a transcript for warnings. -/
def warningsOf (logs : List LogEvent) : List LogEvent :=
  logs.filter (fun e => e.level == LogLevel.warning)

theorem warningsOf_append (l1 l2 : List LogEvent) :
    warningsOf (l1 ++ l2) = warningsOf l1 ++ warningsOf l2 := by
  simp [warningsOf, List.filter_append]

theorem warningsOf_eq_nil (l : List LogEvent)
    (h : ∀ e ∈ l, e.level ≠ LogLevel.warning) : warningsOf l = [] := by
  simp only [warningsOf]
  rw [List.filter_eq_nil_iff]
  intro e he
  simp [h e he]

theorem warningsOf_loop (A : Dict QObject) (bs : List (String × String)) :
    warningsOf (bs.map (fun p =>
        match dictGet A p.1 with
        | none => LogEvent.warningActionNotFound p.1 p.2
        | some _ => LogEvent.infoShortcutSet p.1 p.2))
      = (bs.filter (fun p => (dictGet A p.1).isNone)).map
          (fun p => LogEvent.warningActionNotFound p.1 p.2) := by
  induction bs with
  | nil => rfl
  | cons p rest ih =>
    cases hd : dictGet A p.1 with
    | none =>
      have hg : (match dictGet A p.1 with
          | none => LogEvent.warningActionNotFound p.1 p.2
          | some _ => LogEvent.infoShortcutSet p.1 p.2)
          = LogEvent.warningActionNotFound p.1 p.2 := by rw [hd]
      have hp : (dictGet A p.1).isNone = true := by rw [hd]; rfl
      rw [List.map_cons, hg, List.filter_cons, hp]
      simp only [warningsOf, List.filter_cons] at ih ⊢
      rw [ih]
      simp [LogEvent.level]
    | some q =>
      have hg : (match dictGet A p.1 with
          | none => LogEvent.warningActionNotFound p.1 p.2
          | some _ => LogEvent.infoShortcutSet p.1 p.2)
          = LogEvent.infoShortcutSet p.1 p.2 := by rw [hd]
      have hp : (dictGet A p.1).isNone = false := by rw [hd]; rfl
      rw [List.map_cons, hg, List.filter_cons, hp]
      simp only [warningsOf, List.filter_cons] at ih ⊢
      rw [ih]
      simp [LogEvent.level]

theorem enum_logs_no_warning (env : Env) :
    ∀ e ∈ (_enumerate_qactions env).2, e.level ≠ LogLevel.warning := by
  intro e he
  simp only [_enumerate_qactions] at he
  by_cases hq : env.qtAvailable = false
  · rw [if_pos hq] at he
    simp at he
    subst he
    decide
  · rw [if_neg hq] at he
    cases henv : env.appInstance with
    | none =>
      rw [henv] at he
      simp at he
      subst he
      decide
    | some root =>
      rw [henv] at he
      simp at he
      subst he
      simp [LogEvent.level]

theorem bam_logs_no_warning (lt : Dict QObject) (registered : List String)
    (gl : String → Option String) (a0 : Dict QObject) :
    ∀ e ∈ (_build_action_map lt registered gl a0).2,
      e.level ≠ LogLevel.warning := by
  intro e he
  simp only [_build_action_map] at he
  by_cases hemp : lt.isEmpty
  · rw [if_pos hemp] at he
    simp at he
  · rw [if_neg hemp] at he
    simp only [buildFold_snd, List.nil_append] at he
    rcases List.mem_append.mp he with h1 | h2
    · obtain ⟨n, _, hsome⟩ := List.mem_filterMap.mp h1
      simp only [missLog] at hsome
      split at hsome
      · simp at hsome
      · split at hsome
        · simp at hsome
        · split at hsome
          · simp at hsome
          · have he2 := (Option.some.injEq .. ▸ hsome)
            rw [← he2]
            simp [LogEvent.level]
    · simp at h2
      subst h2
      simp [LogEvent.level]

/-!
Behaviour of `apply` on its three control paths, and the shapes of the
mutations each rebinding pass can emit.
-/

theorem apply_of_applied (env : Env) (st : ManagerState) (h : st.applied = true) :
    apply env st = { state := st, muts := [], logs := [.debugAlreadyApplied] } := by
  simp [apply, h]

theorem apply_state_applied (env : Env) (st : ManagerState) :
    (apply env st).state.applied = true := by
  cases h : st.applied
  · simp only [apply, h]
    by_cases hq : env.qtAvailable = false
    · simp [hq]
    · simp [hq]
  · simp [apply, h]

theorem apply_of_no_qt (env : Env) (st : ManagerState)
    (h : st.applied = false) (hq : env.qtAvailable = false) :
    apply env st = { state := { st with applied := true }, muts := [],
                     logs := [.errorQtUnavailableApply] } := by
  simp [apply, h, hq]

theorem apply_char (env : Env) (st : ManagerState)
    (h : st.applied = false) (hq : env.qtAvailable = true) :
    apply env st =
      { state := { bindings := st.bindings, applied := true,
                   actions := resolvedActions env st },
        muts := st.bindings.filterMap (fun p =>
          (dictGet (resolvedActions env st) p.1).map
            fun q => Mutation.setShortcut q.id p.2),
        logs := (_enumerate_qactions env).2
          ++ (_build_action_map (_enumerate_qactions env).1 env.registeredActions
                env.getActionLabel st.actions).2
          ++ [LogEvent.infoSettingShortcutsViaQActions]
          ++ st.bindings.map (fun p =>
              match dictGet (resolvedActions env st) p.1 with
              | none => LogEvent.warningActionNotFound p.1 p.2
              | some _ => LogEvent.infoShortcutSet p.1 p.2) } := by
  simp [apply, h, hq, applyFold, resolvedActions]

theorem apply_muts_shape (env : Env) (st : ManagerState) :
    ∀ m ∈ (apply env st).muts, ∃ i s, m = Mutation.setShortcut i s := by
  intro m hm
  cases h : st.applied with
  | true => rw [apply_of_applied env st h] at hm; simp at hm
  | false =>
    cases hq : env.qtAvailable with
    | false => rw [apply_of_no_qt env st h hq] at hm; simp at hm
    | true =>
      rw [apply_char env st h hq] at hm
      simp only at hm
      obtain ⟨p, _, hsome⟩ := List.mem_filterMap.mp hm
      obtain ⟨q, _, hq2⟩ := Option.map_eq_some'.mp hsome
      exact ⟨q.id, p.2, hq2.symm⟩

theorem apply2Fold_shape (env : Env) :
    ∀ (bs : List (String × String)) (acc : List Mutation × List LogEvent),
    (∀ m ∈ acc.1, ∃ n s, m = Mutation.updateActionShortcut n s) →
    ∀ m ∈ (bs.foldl (apply2Step env) acc).1,
      ∃ n s, m = Mutation.updateActionShortcut n s := by
  intro bs
  induction bs with
  | nil => intro acc hacc m hm; exact hacc m hm
  | cons p rest ih =>
    intro acc hacc m hm
    rw [List.foldl_cons] at hm
    refine ih _ ?_ m hm
    intro m' hm'
    simp only [apply2Step] at hm'
    split at hm'
    · exact hacc m' hm'
    · split at hm'
      · exact hacc m' hm'
      · simp only at hm'
        rcases List.mem_append.mp hm' with h1 | h1
        · exact hacc m' h1
        · simp at h1
          exact ⟨p.1, p.2, h1⟩

theorem apply2_muts_shape (env : Env) (st : ManagerState) :
    ∀ m ∈ (apply2 env st).muts, ∃ n s, m = Mutation.updateActionShortcut n s := by
  intro m hm
  cases h : st.applied with
  | true => simp [apply2, h] at hm
  | false =>
    simp only [apply2, h] at hm
    refine apply2Fold_shape env st.bindings ([], []) ?_ m ?_
    · intro m' hm'; simp at hm'
    · simpa using hm

/-!
Concrete fixtures used to witness the claims.
-/

/-- An environment in which the Qt toolkit could not be imported. -/
def envNoQt : Env :=
  { qtAvailable := false, appInstance := none, registeredActions := [],
    getActionLabel := fun _ => none, updateActionShortcut := fun _ _ => false }

/-- Qt available but QApplication.instance() returns nothing. -/
def envNoInstance : Env :=
  { qtAvailable := true, appInstance := none, registeredActions := [],
    getActionLabel := fun _ => none, updateActionShortcut := fun _ _ => false }

/-- A QAction with display text "&Edit". -/
def editQAction : QObject := QObject.node 1 true "&Edit" []

/-- A QAction with display text "&Save". -/
def saveQAction : QObject := QObject.node 2 true "&Save" []

/-- An application root widget owning the edit QAction. -/
def demoRoot : QObject := QObject.node 0 false "" [editQAction]

/-- Host registry for the demo: one action, ChooserEdit, whose IDA label
carries tilde mnemonic markup. -/
def glDemo : String → Option String :=
  fun n => if n = "ChooserEdit" then some "~E~dit" else none

/-- Environment for the partial-failure demo. -/
def envDemo : Env :=
  { qtAvailable := true, appInstance := some demoRoot,
    registeredActions := ["ChooserEdit"], getActionLabel := glDemo,
    updateActionShortcut := fun _ _ => false }

/-- Manager whose policy names Foo (unresolvable) and ChooserEdit
(resolvable). -/
def demoState : ManagerState :=
  { bindings := [("Foo", "Meta+X"), ("ChooserEdit", "Meta+E, C")],
    applied := false, actions := [] }

/-- Label table over display texts "&Edit" and "&Save". -/
def labelTableDemo : Dict QObject :=
  [("&Edit", editQAction), ("&Save", saveQAction)]

/-- Registry getter for the mapper demo: EditSegment has label "~E~dit". -/
def glMapperDemo : String → Option String :=
  fun n => if n = "EditSegment" then some "~E~dit" else none

/-- A settings adapter whose stored "enabled" value is the bool False. -/
def saDisabled : SettingsAdapter :=
  { settingsMod := some (fun _ => some (.bool false)),
    keyEnabled := "enabled", defaultEnabled := true }

/-- The label "~E~dit" normalizes to "&Edit". -/
theorem norm_tilde_edit : _replace_tilde_with_ampersand (some "~E~dit") = "&Edit" := by
  show (replaceTildeList "~E~dit".data).asString = "&Edit"
  have h1 : "~E~dit".data = [] ++ '~' :: (['E'] ++ '~' :: ['d', 'i', 't']) := rfl
  rw [h1, replaceTildeList_span [] ['E'] _ (by decide) (by decide) (by decide),
    replaceTildeList_no_tilde ['d', 'i', 't'] (by decide)]
  rfl

theorem filterMap_const_none {α β : Type} (l : List α) :
    (l.filterMap fun _ => (none : Option β)) = [] := by
  induction l with
  | nil => rfl
  | cons a rest ih => simp [List.filterMap_cons, ih]

/-!
The claims.
-/

/-- Claim C1: applying the Rebinder (KeybindingManager.apply) twice within
one process produces the same GUI state as applying it once: the second
invocation leaves the manager state unchanged, performs zero shortcut
mutations, is guarded by the persisted applied flag, and is logged at
debug level, so the folded GUI shortcut state after both calls equals the
state after the first call alone. -/
theorem c1_apply_twice_is_noop (env env2 : Env) (st : ManagerState) :
    (apply env2 (apply env st).state).muts = []
    ∧ (apply env2 (apply env st).state).state = (apply env st).state
    ∧ (apply env2 (apply env st).state).logs = [LogEvent.debugAlreadyApplied]
    ∧ LogEvent.level LogEvent.debugAlreadyApplied = LogLevel.debug
    ∧ ∀ g : Nat → Option String,
        applyMutations (applyMutations g (apply env st).muts)
            (apply env2 (apply env st).state).muts
          = applyMutations g (apply env st).muts := by
  have h2 := apply_of_applied env2 (apply env st).state (apply_state_applied env st)
  refine ⟨?_, ?_, ?_, rfl, ?_⟩
  · rw [h2]
  · rw [h2]
  · rw [h2]
  · intro g
    rw [h2]
    rfl

/-- Claim C3: the Label Normalizer replaces each non-overlapping,
leftmost-first, non-greedy tilde-delimited span by an ampersand followed
by the span body, and preserves every character outside such spans: for
any prefix free of tildes and any shortest span body (no tilde, and no
newline since the dot of the pattern does not cross lines), the prefix
passes through unchanged, the span becomes the ampersand form, and the
scan continues after the closing tilde. -/
theorem c3_normalizer_spans (pre x rest : List Char)
    (hpre : '~' ∉ pre) (hx : '~' ∉ x) (hn : '\n' ∉ x) :
    replaceTildeList (pre ++ '~' :: (x ++ '~' :: rest))
      = pre ++ '&' :: (x ++ replaceTildeList rest) :=
  replaceTildeList_span pre x rest hpre hx hn

/-- Witness for C3 at the concrete input of the claim: "~A~B~C~"
normalizes to "&AB&C". -/
theorem c3_normalizer_spans_witness :
    ('~' ∉ ([] : List Char)) ∧ ('~' ∉ ['A']) ∧ ('\n' ∉ ['A'])
    ∧ _replace_tilde_with_ampersand (some "~A~B~C~") = "&AB&C" := by
  refine ⟨by decide, by decide, by decide, ?_⟩
  show (replaceTildeList "~A~B~C~".data).asString = "&AB&C"
  have h1 : "~A~B~C~".data = [] ++ '~' :: (['A'] ++ '~' :: ['B', '~', 'C', '~']) := rfl
  rw [h1, c3_normalizer_spans [] ['A'] _ (by decide) (by decide) (by decide)]
  have h2 : ['B', '~', 'C', '~'] = ['B'] ++ '~' :: (['C'] ++ '~' :: []) := rfl
  rw [h2, c3_normalizer_spans ['B'] ['C'] [] (by decide) (by decide) (by decide),
    replaceTildeList_nil]
  rfl

/-- Claim C9: for empty or None input the Label Normalizer returns the
empty string (the body evaluates text or "" before substituting) and
raises no error. -/
theorem c9_empty_none_input :
    _replace_tilde_with_ampersand none = ""
    ∧ _replace_tilde_with_ampersand (some "") = "" := by
  have h : (replaceTildeList ([] : List Char)).asString = "" := by
    rw [replaceTildeList_nil]
    rfl
  exact ⟨h, h⟩

/-- Claim C8: in the LabelIndex built by the Action Enumerator, the entry
for a display text is the last object with that text in traversal order,
the queue-pop order of the enumeration loop: last write wins, with no
uniqueness guarantee when several objects share a text. -/
theorem c8_last_write_wins (root : QObject) (ra : List String)
    (gl : String → Option String) (ua : String → String → Bool) (t : String) :
    dictGet (_enumerate_qactions
        { qtAvailable := true, appInstance := some root,
          registeredActions := ra, getActionLabel := gl,
          updateActionShortcut := ua }).1 t
      = lastWithText t (bfsVisit [root]) := by
  show dictGet (enumLoop [root] []) t = lastWithText t (bfsVisit [root])
  rw [enumLoop_eq_foldl, dictGet_foldl_insert]
  cases hl : lastWithText t (bfsVisit [root]) with
  | some q => rfl
  | none => rfl

/-- Counterexample to claim C7 as stated: the two rebinding
implementations do not operate from different binding tables; at the
freshly constructed manager both policy loops iterate the same dict,
self._bindings. -/
theorem c7_counterexample :
    applyBindingTable initManagerState = apply2BindingTable initManagerState
    ∧ applyBindingTable initManagerState = initBindings :=
  ⟨rfl, rfl⟩

/-- Claim C7 (amended): the two rebinding implementations operate from
the same binding table (both loop headers read self._bindings.items());
they differ in mechanism, not in table: apply emits only Qt
QAction.setShortcut mutations while apply2 emits only
idaapi.update_action_shortcut calls. -/
theorem c7_same_table_two_mechanisms (st : ManagerState) (env : Env) :
    applyBindingTable st = apply2BindingTable st
    ∧ ((apply env st).muts.all fun m =>
        match m with
        | Mutation.setShortcut _ _ => true
        | Mutation.updateActionShortcut _ _ => false) = true
    ∧ ((apply2 env st).muts.all fun m =>
        match m with
        | Mutation.updateActionShortcut _ _ => true
        | Mutation.setShortcut _ _ => false) = true := by
  refine ⟨rfl, ?_, ?_⟩
  · rw [List.all_eq_true]
    intro m hm
    obtain ⟨i, s, rfl⟩ := apply_muts_shape env st m hm
    rfl
  · rw [List.all_eq_true]
    intro m hm
    obtain ⟨n, s, rfl⟩ := apply2_muts_shape env st m hm
    rfl

/-- Claim C10: apply sets the applied flag before checking toolkit
availability and before any mutation: with Qt unavailable on the first
invocation, that call mutates nothing yet flips the flag, and every
later invocation (under any environment) is a flag-guarded no-op, so the
flag is true while zero bindings were ever applied. -/
theorem c10_flag_not_atomic_with_application (env : Env) (st : ManagerState)
    (h : st.applied = false) (hq : env.qtAvailable = false) :
    apply env st = { state := { st with applied := true }, muts := [],
                     logs := [LogEvent.errorQtUnavailableApply] }
    ∧ ∀ env2 : Env,
        apply env2 { st with applied := true }
          = { state := { st with applied := true }, muts := [],
              logs := [LogEvent.debugAlreadyApplied] } :=
  ⟨apply_of_no_qt env st h hq, fun env2 => apply_of_applied env2 _ rfl⟩

/-- Witness for C10 at the initial manager and a Qt-less environment. -/
theorem c10_flag_not_atomic_witness :
    initManagerState.applied = false ∧ envNoQt.qtAvailable = false
    ∧ apply envNoQt initManagerState
        = { state := { initManagerState with applied := true }, muts := [],
            logs := [LogEvent.errorQtUnavailableApply] }
    ∧ apply envNoQt { initManagerState with applied := true }
        = { state := { initManagerState with applied := true }, muts := [],
            logs := [LogEvent.debugAlreadyApplied] } :=
  ⟨rfl, rfl,
   (c10_flag_not_atomic_with_application envNoQt initManagerState rfl rfl).1,
   (c10_flag_not_atomic_with_application envNoQt initManagerState rfl rfl).2 envNoQt⟩

/-- Claim C2: for every binding-policy entry whose action name is absent
from the resolved name-to-object mapping, the Rebinder logs a warning and
skips only that entry, and every other policy entry is still applied: the
mutations of an apply pass are exactly the resolved entries in policy
order, and the warnings of its transcript are exactly the unresolved
entries in policy order. -/
theorem c2_partial_failure_isolation (env : Env) (st : ManagerState)
    (h : st.applied = false) (hq : env.qtAvailable = true) :
    (apply env st).muts
      = st.bindings.filterMap (fun p =>
          (dictGet (resolvedActions env st) p.1).map
            fun q => Mutation.setShortcut q.id p.2)
    ∧ warningsOf (apply env st).logs
      = (st.bindings.filter
          (fun p => (dictGet (resolvedActions env st) p.1).isNone)).map
          (fun p => LogEvent.warningActionNotFound p.1 p.2) := by
  have hc := apply_char env st h hq
  constructor
  · rw [hc]
  · have hl : (apply env st).logs
        = (_enumerate_qactions env).2
          ++ (_build_action_map (_enumerate_qactions env).1 env.registeredActions
                env.getActionLabel st.actions).2
          ++ [LogEvent.infoSettingShortcutsViaQActions]
          ++ st.bindings.map (fun p =>
              match dictGet (resolvedActions env st) p.1 with
              | none => LogEvent.warningActionNotFound p.1 p.2
              | some _ => LogEvent.infoShortcutSet p.1 p.2) := by
      rw [hc]
    rw [hl, warningsOf_append, warningsOf_append, warningsOf_append,
      warningsOf_eq_nil _ (enum_logs_no_warning env),
      warningsOf_eq_nil _ (bam_logs_no_warning _ _ _ _),
      warningsOf_eq_nil _ (by intro e he; simp at he; subst he; decide),
      warningsOf_loop]
    simp

/-- Witness for C2 at the example of the claim: policy
[Foo -> Meta+X, ChooserEdit -> Meta+E, C] where only ChooserEdit
resolves; only ChooserEdit gets its shortcut set and only Foo draws a
warning. -/
theorem c2_partial_failure_isolation_witness :
    demoState.applied = false ∧ envDemo.qtAvailable = true
    ∧ (apply envDemo demoState).muts = [Mutation.setShortcut 1 "Meta+E, C"]
    ∧ warningsOf (apply envDemo demoState).logs
        = [LogEvent.warningActionNotFound "Foo" "Meta+X"] := by
  have htab : (_enumerate_qactions envDemo).1 = [("&Edit", editQAction)] := by
    show enumLoop [demoRoot] [] = _
    simp [enumLoop.eq_def, actionDescendants, actionDescendantsOf, QObject.isAction,
      QObject.text, dictInsert, demoRoot, editQAction]
  have hres : resolvedActions envDemo demoState = [("ChooserEdit", editQAction)] := by
    show (_build_action_map (_enumerate_qactions envDemo).1 envDemo.registeredActions
      envDemo.getActionLabel demoState.actions).1 = _
    rw [htab]
    show (_build_action_map [("&Edit", editQAction)] ["ChooserEdit"] glDemo []).1 = _
    simp [_build_action_map, buildStep, glDemo, norm_tilde_edit, dictGet, dictInsert]
  refine ⟨rfl, rfl, ?_, ?_⟩
  · rw [(c2_partial_failure_isolation envDemo demoState rfl rfl).1, hres]
    rfl
  · rw [(c2_partial_failure_isolation envDemo demoState rfl rfl).2, hres]
    rfl

/-- Claim C4: the Action Mapper yields exactly those registered names
whose normalized label hits the label table (names with no obtainable
label are skipped, and a lookup miss contributes only a debug event and
is skipped), starting from the empty _actions dict. -/
theorem c4_action_mapper (lt : Dict QObject) (registered : List String)
    (gl : String → Option String) (h : lt.isEmpty = false) :
    (∀ name, dictGet (_build_action_map lt registered gl []).1 name
        = if name ∈ registered then resolveName lt gl name else none)
    ∧ (_build_action_map lt registered gl []).2
        = registered.filterMap (missLog lt gl)
          ++ [LogEvent.infoMapped (_build_action_map lt registered gl []).1.length]
    ∧ ∀ n l, LogEvent.level (LogEvent.debugActionNotFound n l) = LogLevel.debug := by
  have hfst : (_build_action_map lt registered gl []).1
      = (registered.foldl (buildStep lt gl)
          (([] : Dict QObject), ([] : List LogEvent))).1 := by
    simp [_build_action_map, h]
  refine ⟨?_, ?_, fun n l => rfl⟩
  · intro name
    rw [hfst, buildFold_fst_get]
    by_cases hm : name ∈ registered
    · cases hr : resolveName lt gl name with
      | some q => simp [hm, hr]
      | none => simp [hm, hr, dictGet]
    · simp [hm, dictGet]
  · have hsnd : (_build_action_map lt registered gl []).2
        = (registered.foldl (buildStep lt gl)
            (([] : Dict QObject), ([] : List LogEvent))).2
          ++ [LogEvent.infoMapped
              (registered.foldl (buildStep lt gl)
                (([] : Dict QObject), ([] : List LogEvent))).1.length] := by
      simp [_build_action_map, h]
    rw [hsnd, buildFold_snd, hfst]
    simp

/-- Witness for C4 at the example of the claim: a label table over
display texts "&Edit" and "&Save", and a registered name EditSegment
with label "~E~dit", gets bound to the object with text "&Edit". -/
theorem c4_action_mapper_witness :
    labelTableDemo.isEmpty = false
    ∧ dictGet (_build_action_map labelTableDemo ["EditSegment"] glMapperDemo []).1
        "EditSegment" = some editQAction := by
  refine ⟨rfl, ?_⟩
  have h := (c4_action_mapper labelTableDemo ["EditSegment"] glMapperDemo rfl).1
    "EditSegment"
  rw [h, if_pos (List.mem_cons_self _ _)]
  show resolveName labelTableDemo glMapperDemo "EditSegment" = some editQAction
  simp [resolveName, glMapperDemo, norm_tilde_edit, dictGet, labelTableDemo]

/-- Counterexample to claim C5 as stated: with the toolkit unavailable,
apply returns right after one error log and before its policy loop, so
the rebinding pass logs no warning at all even though the policy has
twelve entries. -/
theorem c5_counterexample :
    warningsOf (apply envNoQt initManagerState).logs = []
    ∧ initManagerState.bindings.length = 12 :=
  ⟨rfl, rfl⟩

/-- Claim C5 (amended): when no application instance exists (with the
toolkit importable), the enumerator logs an error, returns an empty
mapping, and the rebinding pass over a fresh manager performs no mutation
and warns for every policy entry; when the toolkit itself is unavailable,
apply short-circuits with a single error before the policy loop, so the
per-entry warnings arise only in the no-instance case. -/
theorem c5_no_instance_warns_per_entry (env : Env) (st : ManagerState)
    (hq : env.qtAvailable = true) (hi : env.appInstance = none)
    (h : st.applied = false) (ha : st.actions = []) :
    _enumerate_qactions env = ([], [LogEvent.errorNoApplicationInstance])
    ∧ LogEvent.level LogEvent.errorNoApplicationInstance = LogLevel.error
    ∧ (apply env st).muts = []
    ∧ (apply env st).logs
        = LogEvent.errorNoApplicationInstance
          :: LogEvent.infoSettingShortcutsViaQActions
          :: st.bindings.map (fun p => LogEvent.warningActionNotFound p.1 p.2) := by
  have henum : _enumerate_qactions env = ([], [LogEvent.errorNoApplicationInstance]) := by
    simp [_enumerate_qactions, hq, hi]
  have hres : resolvedActions env st = [] := by
    simp [resolvedActions, henum, _build_action_map, ha]
  refine ⟨henum, rfl, ?_, ?_⟩
  · rw [apply_char env st h hq]
    simp only [hres]
    simp [dictGet, filterMap_const_none]
  · rw [apply_char env st h hq]
    simp only [hres, henum]
    have hbam2 : (_build_action_map ([] : Dict QObject) env.registeredActions
        env.getActionLabel st.actions).2 = [] := by
      simp [_build_action_map]
    rw [hbam2]
    simp [dictGet]

/-- Witness for C5 (amended) at a Qt-available, instance-less
environment and the freshly constructed manager. -/
theorem c5_no_instance_witness :
    envNoInstance.qtAvailable = true ∧ envNoInstance.appInstance = none
    ∧ initManagerState.applied = false ∧ initManagerState.actions = []
    ∧ _enumerate_qactions envNoInstance = ([], [LogEvent.errorNoApplicationInstance])
    ∧ (apply envNoInstance initManagerState).muts = []
    ∧ (apply envNoInstance initManagerState).logs
        = LogEvent.errorNoApplicationInstance
          :: LogEvent.infoSettingShortcutsViaQActions
          :: initManagerState.bindings.map
              (fun p => LogEvent.warningActionNotFound p.1 p.2) := by
  obtain ⟨h1, _, h3, h4⟩ := c5_no_instance_warns_per_entry envNoInstance
    initManagerState rfl rfl rfl rfl
  exact ⟨rfl, rfl, rfl, rfl, h1, h3, h4⟩

/-- Claim C6: if the enable setting is off before the UI-ready event, the
lifecycle hook skips the transition entirely: the manager state is
untouched, zero shortcut mutations are performed, only the disabled info
line is logged, and the applied flag stays false. -/
theorem c6_disabled_setting_skips (sa : SettingsAdapter) (env : Env)
    (st : ManagerState) (h : sa.plugin_enabled = false)
    (h2 : st.applied = false) :
    ready_to_run sa env st
      = { state := st, muts := [], logs := [LogEvent.infoDisabledViaSettings] }
    ∧ (ready_to_run sa env st).state.applied = false := by
  have hr : ready_to_run sa env st
      = { state := st, muts := [], logs := [LogEvent.infoDisabledViaSettings] } := by
    simp [ready_to_run, h]
  exact ⟨hr, by rw [hr]; exact h2⟩

/-- Witness for C6: a stored bool False for the enabled key disables the
plugin and the hook leaves the fresh manager unapplied. -/
theorem c6_disabled_setting_skips_witness :
    saDisabled.plugin_enabled = false ∧ initManagerState.applied = false
    ∧ ready_to_run saDisabled envNoQt initManagerState
        = { state := initManagerState, muts := [],
            logs := [LogEvent.infoDisabledViaSettings] }
    ∧ (ready_to_run saDisabled envNoQt initManagerState).state.applied = false := by
  obtain ⟨ha, hb⟩ := c6_disabled_setting_skips saDisabled envNoQt initManagerState
    rfl rfl
  exact ⟨rfl, rfl, ha, hb⟩

end Keybinder
